import Mathlib

/-!
The rotating particle field of animation.js

A shallow embedding of `src/app/static/js/animation.js`.

Number model. A JavaScript Number is a binary64 value: `Num` holds a finite
value as a rational, the two infinities and NaN (the two zeros are one value:
no operation of the script tells them apart). Every arithmetic operation of
`animate` and of the particle loop rounds its exact result to binary64
(`toFloat64`: round to nearest, ties to even, subnormals, overflow to an
infinity), a numeric literal is the binary64 value nearest to its decimal
text, and a store into the `Float32Array` rounds to binary32 (`toFloat32`).

The code of `animate` is written once, over an arithmetic `Arith`, and read in
two arithmetics: `binary64`, the arithmetic of the code (`animate`), and
`exactArith`, exact rational arithmetic (`animateExact`), in which the
specification states its numeric examples.

The host values a callback reads (`window.innerWidth`, `event.clientX`, ...)
are finite Numbers and are arguments. The `mousemove` and `resize` listeners
perform one operation per assignment; the state holds the exact result of that
operation, and `animate` reads `mouseX` and `mouseY` as the binary64 values of
these results. The test `mouseX > 0` has the same outcome on the exact
difference of two binary64 values and on its binary64 value.
-/

namespace Animation

/-! ## Numbers -/

/-- A Number: a finite value, an infinity, or NaN. -/
inductive Num where
  | fin (q : ℚ)
  | posInf
  | negInf
  | nan
  deriving DecidableEq

/-- Number division `a / b` of two finite Numbers: a zero divisor gives an
infinity of the sign of `a`, and `0 / 0` is NaN. -/
def Num.div (a b : ℚ) : Num :=
  if b = 0 then
    if 0 < a then Num.posInf else if a < 0 then Num.negInf else Num.nan
  else Num.fin (a / b)

/-- Nearest integer to `x`, a tie going to the even neighbour. -/
def roundHalfEven (x : ℚ) : ℤ :=
  let f := ⌊x⌋
  let r := x - f
  if r < 1 / 2 then f else if 1 / 2 < r then f + 1 else if f % 2 = 0 then f else f + 1

/-- The binary exponent of a non-zero rational: the `e` with
`2 ^ e ≤ |x| < 2 ^ (e + 1)`. -/
def binExp (x : ℚ) : ℤ :=
  let e0 : ℤ := (Nat.log2 x.num.natAbs : ℤ) - (Nat.log2 x.den : ℤ)
  if (2 : ℚ) ^ e0 ≤ |x| then e0 else e0 - 1

/-- Rounding of a rational to the binary format with `p` significant bits and least normal
exponent `emin`, the exponent unbounded above: round to nearest, ties to even, values below
`2 ^ emin` on the subnormal grid. -/
def roundBinary (p : ℕ) (emin : ℤ) (x : ℚ) : ℚ :=
  if x = 0 then 0
  else
    let e := max (binExp x) emin
    let q : ℚ := 2 ^ (e - ((p : ℤ) - 1))
    (roundHalfEven (x / q) : ℚ) * q

/-- Conversion of a rational to the binary format with `p` significant bits, least normal
exponent `emin` and overflow threshold `2 ^ emax`: the rounded value, or an infinity when its
magnitude reaches the threshold. -/
@[irreducible]
def toBinary (p : ℕ) (emin : ℤ) (emax : ℕ) (x : ℚ) : Num :=
  let y := roundBinary p emin x
  if (2 : ℚ) ^ emax ≤ y then Num.posInf
  else if y ≤ -(2 : ℚ) ^ emax then Num.negInf
  else Num.fin y

/-- Conversion to binary32: 24 significant bits, subnormals below `2 ^ (-126)`, an infinity
from `2 ^ 128`. -/
def toFloat32 (x : ℚ) : Num := toBinary 24 (-126) 128 x

/-- Conversion to binary64: 53 significant bits, subnormals below `2 ^ (-1022)`, an infinity
from `2 ^ 1024`. -/
def toFloat64 (x : ℚ) : Num := toBinary 53 (-1022) 1024 x

/-- Number addition `a + b`, a finite exact sum rounded by `fl`. -/
def Num.add (fl : ℚ → Num) : Num → Num → Num
  | Num.fin a, Num.fin b => fl (a + b)
  | Num.nan, _ => Num.nan
  | _, Num.nan => Num.nan
  | Num.posInf, Num.negInf => Num.nan
  | Num.negInf, Num.posInf => Num.nan
  | Num.posInf, _ => Num.posInf
  | _, Num.posInf => Num.posInf
  | Num.negInf, _ => Num.negInf
  | _, Num.negInf => Num.negInf

/-- The infinity of the sign of `a`, or NaN for zero: the product of an infinity and `a`. -/
def Num.infTimes (positive : Bool) (a : ℚ) : Num :=
  if a = 0 then Num.nan
  else if (0 < a) = positive then Num.posInf else Num.negInf

/-- Number multiplication `a * b`, a finite exact product rounded by `fl`. -/
def Num.mul (fl : ℚ → Num) : Num → Num → Num
  | Num.fin a, Num.fin b => fl (a * b)
  | Num.nan, _ => Num.nan
  | _, Num.nan => Num.nan
  | Num.posInf, Num.fin b => Num.infTimes true b
  | Num.negInf, Num.fin b => Num.infTimes false b
  | Num.fin a, Num.posInf => Num.infTimes true a
  | Num.fin a, Num.negInf => Num.infTimes false a
  | Num.posInf, Num.posInf => Num.posInf
  | Num.negInf, Num.negInf => Num.posInf
  | Num.posInf, Num.negInf => Num.negInf
  | Num.negInf, Num.posInf => Num.negInf

/-- Number negation. -/
def Num.neg : Num → Num
  | Num.fin a => Num.fin (-a)
  | Num.posInf => Num.negInf
  | Num.negInf => Num.posInf
  | Num.nan => Num.nan

/-- Number subtraction `a - b`. -/
def Num.sub (fl : ℚ → Num) (a b : Num) : Num := Num.add fl a (Num.neg b)

/-- The comparison `a <= b` of two Numbers, false when either is NaN. -/
def Num.le : Num → Num → Prop
  | Num.nan, _ => False
  | _, Num.nan => False
  | Num.negInf, _ => True
  | _, Num.posInf => True
  | Num.fin a, Num.fin b => a ≤ b
  | _, _ => False

/-- The element store of a `Float32Array`: a finite Number is converted to binary32, an
infinity and NaN are stored as they are. -/
def Num.store32 : Num → Num
  | Num.fin a => toFloat32 a
  | n => n

/-- A finite binary64 value: a rational that conversion to binary64 leaves as it is. -/
def isFloat64 (x : ℚ) : Prop := toFloat64 x = Num.fin x

/-- An arithmetic in which the code of `animate` can be read: the Number a numeric literal
denotes (`lit`), the Number read from a variable of which the state holds the exact value
(`num`), and the operations `+` and `*`. -/
structure Arith (α : Type) where
  lit : ℚ → α
  num : ℚ → α
  add : α → α → α
  mul : α → α → α

/-- Exact rational arithmetic. -/
def exactArith : Arith ℚ :=
  { lit := id, num := id, add := (· + ·), mul := (· * ·) }

/-- The arithmetic of the code: binary64. A literal, a value read and every result are
binary64 values. -/
def binary64 : Arith Num :=
  { lit := toFloat64, num := toFloat64, add := Num.add toFloat64, mul := Num.mul toFloat64 }

/-! ## Data model -/

/-- The host values the script reads from `window`. -/
structure Window where
  innerWidth : ℚ
  innerHeight : ℚ
  devicePixelRatio : ℚ

/-- A triple of coordinates (`THREE.Vector3`) or of angles (`THREE.Euler`). -/
structure Vec3 (α : Type) where
  x : α
  y : α
  z : α

/-- The parameters a projection matrix was last computed from. -/
structure Projection where
  fov : ℚ
  aspect : Num
  near : ℚ
  far : ℚ

/-- The `THREE.PerspectiveCamera` of line 3. -/
structure Camera where
  fov : ℚ
  aspect : Num
  near : ℚ
  far : ℚ
  position : Vec3 ℚ
  projection : Projection

/-- The `THREE.WebGLRenderer` of line 4: its pixel ratio and the output size set on it. -/
structure Renderer where
  pixelRatio : ℚ
  width : ℚ
  height : ℚ

/-- The variables of the script: `camera`, `renderer`, `posArray`,
`particlesMesh.rotation`, `mouseX` and `mouseY`. The angles are values of the arithmetic `α`
in which `animate` is read. -/
structure State (α : Type) where
  camera : Camera
  renderer : Renderer
  posArray : List Num
  rotation : Vec3 α
  mouseX : ℚ
  mouseY : ℚ

/-! ## Library operations used by the script -/

/-- The library call `camera.updateProjectionMatrix()`: the projection is recomputed from the
camera's current parameters. -/
def Camera.updateProjectionMatrix (c : Camera) : Camera :=
  { c with projection := ⟨c.fov, c.aspect, c.near, c.far⟩ }

/-- The library constructor `new THREE.PerspectiveCamera(fov, aspect, near, far)`: a camera at
the origin whose projection is up to date. -/
def Camera.new (fov : ℚ) (aspect : Num) (near far : ℚ) : Camera :=
  Camera.updateProjectionMatrix
    { fov := fov, aspect := aspect, near := near, far := far, position := ⟨0, 0, 0⟩,
      projection := ⟨fov, aspect, near, far⟩ }

/-- The library call `renderer.setPixelRatio(r)`. -/
def Renderer.setPixelRatio (r : Renderer) (ratio : ℚ) : Renderer :=
  { r with pixelRatio := ratio }

/-- The library call `renderer.setSize(w, h)`: the output size becomes `w` by `h`. -/
def Renderer.setSize (r : Renderer) (w h : ℚ) : Renderer :=
  { r with width := w, height := h }

/-! ## The script -/

/-- Line 16: `const particlesCount = 2000`. -/
def particlesCount : ℕ := 2000

/-- Line 20, the value stored at index `i`: `(Math.random() - 0.5) * 100` in binary64, where
`r` is what `Math.random()` returned, converted to binary32 by the store. -/
def particleComponent (r : ℚ) : Num :=
  Num.store32
    (Num.mul toFloat64 (Num.sub toFloat64 (Num.fin r) (toFloat64 0.5)) (toFloat64 100))

/-- Lines 17 to 21: a zero-filled `Float32Array` of `particlesCount * 3` elements, then the loop
`for (let i = 0; i < particlesCount * 3; i++) posArray[i] = ...`. The `i`-th call of
`Math.random()` returns `random i`. -/
def mkPosArray (random : ℕ → ℚ) : List Num :=
  (List.range (particlesCount * 3)).foldl
    (fun arr i => arr.set i (particleComponent (random i)))
    (List.replicate (particlesCount * 3) (Num.fin 0))

/-- Lines 2 to 36 and 56 to 57: the state when the script has run up to the first call of
`animate`. `canvas` is the renderer as the library constructs it on the `#bg-canvas` element,
before its pixel ratio and size are set. The mesh is created with rotation `(0, 0, 0)`. -/
def init {α : Type} (A : Arith α) (w : Window) (canvas : Renderer) (random : ℕ → ℚ) :
    State α :=
  let camera := Camera.new 75 (Num.div w.innerWidth w.innerHeight) 0.1 1000
  let renderer := (canvas.setPixelRatio w.devicePixelRatio).setSize w.innerWidth w.innerHeight
  let camera := { camera with position := { camera.position with z := 30 } }
  { camera := camera
    renderer := renderer
    posArray := mkPosArray random
    rotation := ⟨A.num 0, A.num 0, A.num 0⟩
    mouseX := 0
    mouseY := 0 }

/-- Lines 39 to 53, one invocation of `animate`, in the arithmetic `A`.
`requestAnimationFrame(animate)` and `renderer.render(scene, camera)` act on the host (the frame
scheduler, the drawing surface) and assign no variable of the script. -/
def animateIn {α : Type} (A : Arith α) (s : State α) : State α :=
  let rotation := { s.rotation with x := A.add s.rotation.x (A.lit 0.0001) }
  let rotation := { rotation with y := A.add rotation.y (A.lit 0.0002) }
  let rotation := { rotation with z := A.add rotation.z (A.lit 0.0001) }
  let rotation :=
    if s.mouseX > 0 then
      let rotation :=
        { rotation with x := A.add rotation.x (A.mul (A.num s.mouseY) (A.lit 0.00008)) }
      { rotation with y := A.add rotation.y (A.mul (A.num s.mouseX) (A.lit 0.00008)) }
    else rotation
  { s with rotation := rotation }

/-- One invocation of `animate` as the code runs it, in binary64. -/
def animate (s : State Num) : State Num := animateIn binary64 s

/-- One invocation of `animate` read in exact arithmetic. -/
def animateExact (s : State ℚ) : State ℚ := animateIn exactArith s

/-- Lines 59 to 62, the `mousemove` listener. -/
def mousemove {α : Type} (w : Window) (clientX clientY : ℚ) (s : State α) : State α :=
  let s := { s with mouseX := clientX - w.innerWidth / 2 }
  { s with mouseY := clientY - w.innerHeight / 2 }

/-- Lines 65 to 69, the `resize` listener. -/
def resize {α : Type} (w : Window) (s : State α) : State α :=
  let camera := { s.camera with aspect := Num.div w.innerWidth w.innerHeight }
  let camera := camera.updateProjectionMatrix
  { s with camera := camera, renderer := s.renderer.setSize w.innerWidth w.innerHeight }

/-- Line 72: the script ends with a first call of `animate`, so the state in which the host
dispatches its first event is the initial state after one frame. -/
def load {α : Type} (A : Arith α) (w : Window) (canvas : Renderer) (random : ℕ → ℚ) :
    State α :=
  animateIn A (init A w canvas random)

/-- What the host can dispatch to the script once it is loaded. -/
inductive Event where
  | frame
  | pointer (w : Window) (clientX clientY : ℚ)
  | resized (w : Window)

/-- One callback run to completion. -/
def step {α : Type} (A : Arith α) (s : State α) : Event → State α
  | Event.frame => animateIn A s
  | Event.pointer w cx cy => mousemove w cx cy s
  | Event.resized w => resize w s

/-- A finite interleaving of callbacks, each run to completion before the next. -/
def run {α : Type} (A : Arith α) (s : State α) (es : List Event) : State α :=
  es.foldl (step A) s

/-- The number of `animate` invocations in an interleaving. -/
def frames : List Event → ℕ
  | [] => 0
  | Event.frame :: es => frames es + 1
  | _ :: es => frames es

/-- The state after `n` consecutive invocations of `animate`. -/
def animateN {α : Type} (A : Arith α) : ℕ → State α → State α
  | 0, s => s
  | n + 1, s => animateN A n (animateIn A s)

/-- The value of an angle after `n` additions of the literal `c`, starting from `v`. -/
def addN {α : Type} (A : Arith α) (c : ℚ) : ℕ → α → α
  | 0, v => v
  | n + 1, v => addN A c n (A.add v (A.lit c))

/-! ## Sample inputs -/

/-- A viewport of 800 by 600 pixels at pixel ratio 1. -/
def sampleWindow : Window := ⟨800, 600, 1⟩

/-- The script loaded in `sampleWindow` on a 300 by 150 canvas, every `Math.random()` call
returning `0.25`: the state before the first call of `animate`. -/
def sampleInit {α : Type} (A : Arith α) : State α :=
  init A sampleWindow ⟨1, 300, 150⟩ (fun _ => 0.25)

/-- The sample script after its load, which runs the first frame. -/
def sampleLoaded {α : Type} (A : Arith α) : State α :=
  load A sampleWindow ⟨1, 300, 150⟩ (fun _ => 0.25)

/-- The loaded sample after a pointer move to `(405, 310)`: `mouseX = 5`, `mouseY = 10`. -/
def sampleRightBelow {α : Type} (A : Arith α) : State α :=
  mousemove sampleWindow 405 310 (sampleLoaded A)

/-- The loaded sample after a pointer move to `(395, 1300)`: `mouseX = -5`,
`mouseY = 1000`. -/
def sampleLeft {α : Type} (A : Arith α) : State α :=
  mousemove sampleWindow 395 1300 (sampleLoaded A)

/-- The loaded sample after a pointer move to `(405, 290)`: `mouseX = 5`, `mouseY = -10`. -/
def sampleRightAbove {α : Type} (A : Arith α) : State α :=
  mousemove sampleWindow 405 290 (sampleLoaded A)

/-- The loaded sample with `rotation.z` set to `10 ^ 13`. -/
def sampleFar : State Num :=
  { sampleLoaded binary64 with rotation := ⟨Num.fin 0, Num.fin 0, Num.fin (10 ^ 13)⟩ }

/-- An interleaving of seven frames with a pointer move and a resize. -/
def sampleEvents : List Event :=
  [Event.frame, Event.pointer sampleWindow 405 290, Event.frame,
   Event.resized ⟨1024, 768, 1⟩, Event.frame, Event.frame, Event.frame, Event.frame,
   Event.frame]

/-- The greatest multiple of `2 ^ (-52)` below 1 (`0.9999999999999998`), a double in the
range `[0, 1)` of `Math.random()`. -/
def nearOne : ℚ := 1 - 1 / 2 ^ 52

/-- The binary64 value nearest to `0.0001`. -/
def c0001 : ℚ := 7378697629483821 / 2 ^ 66

/-- The binary64 value nearest to `0.0002`. -/
def c0002 : ℚ := 7378697629483821 / 2 ^ 65

/-- The binary64 value nearest to `0.00008`. -/
def c00008 : ℚ := 5902958103587057 / 2 ^ 66

/-! ## The animation frame -/

/-- The rotation a frame leaves when the pointer gate `mouseX > 0` is open. -/
theorem animateIn_rotation_of_pos {α : Type} (A : Arith α) (s : State α) (h : 0 < s.mouseX) :
    (animateIn A s).rotation =
      ⟨A.add (A.add s.rotation.x (A.lit 0.0001)) (A.mul (A.num s.mouseY) (A.lit 0.00008)),
       A.add (A.add s.rotation.y (A.lit 0.0002)) (A.mul (A.num s.mouseX) (A.lit 0.00008)),
       A.add s.rotation.z (A.lit 0.0001)⟩ := by
  simp [animateIn, h]

/-- The rotation a frame leaves when the pointer gate `mouseX > 0` is closed. -/
theorem animateIn_rotation_of_nonpos {α : Type} (A : Arith α) (s : State α)
    (h : s.mouseX ≤ 0) :
    (animateIn A s).rotation =
      ⟨A.add s.rotation.x (A.lit 0.0001), A.add s.rotation.y (A.lit 0.0002),
       A.add s.rotation.z (A.lit 0.0001)⟩ := by
  simp [animateIn, not_lt.mpr h]

/-- A frame adds `0.0001` to `rotation.z`, whatever the pointer state. -/
theorem animateIn_rotation_z {α : Type} (A : Arith α) (s : State α) :
    (animateIn A s).rotation.z = A.add s.rotation.z (A.lit 0.0001) := by
  unfold animateIn
  split_ifs <;> rfl

/-- In exact arithmetic `n` additions of `c` add `c * n`. -/
theorem addN_exact (c : ℚ) (n : ℕ) (v : ℚ) : addN exactArith c n v = v + c * n := by
  induction n generalizing v with
  | zero => simp [addN]
  | succ n ih =>
    rw [addN, ih]
    simp only [exactArith, id, Nat.cast_succ]
    ring

/-- With the pointer gate closed, `n` frames are `n` additions of the drift to each angle. -/
theorem animateN_rotation_of_nonpos {α : Type} (A : Arith α) (n : ℕ) (s : State α)
    (h : s.mouseX ≤ 0) :
    (animateN A n s).rotation =
      ⟨addN A 0.0001 n s.rotation.x, addN A 0.0002 n s.rotation.y,
       addN A 0.0001 n s.rotation.z⟩ := by
  induction n generalizing s with
  | zero => rfl
  | succ n ih =>
    have h1 : (animateIn A s).mouseX ≤ 0 := h
    rw [animateN, ih (animateIn A s) h1, animateIn_rotation_of_nonpos A s h]
    rfl

/-- C1. For every state with `mouseX > 0` and every `mouseY`, one invocation of `animate`
changes the rotation by exactly `(0.0001 + mouseY × 0.00008, 0.0002 + mouseX × 0.00008, 0.0001)`
in exact arithmetic; for `mouseX = 5`, `mouseY = 10` that is `(0.0009, 0.0006, 0.0001)`. -/
theorem C1_animate_delta_gate_open (s : State ℚ) (h : 0 < s.mouseX) :
    ((animateExact s).rotation.x - s.rotation.x = 0.0001 + s.mouseY * 0.00008 ∧
      (animateExact s).rotation.y - s.rotation.y = 0.0002 + s.mouseX * 0.00008 ∧
      (animateExact s).rotation.z - s.rotation.z = 0.0001) ∧
    (s.mouseX = 5 → s.mouseY = 10 →
      (animateExact s).rotation.x - s.rotation.x = 0.0009 ∧
      (animateExact s).rotation.y - s.rotation.y = 0.0006 ∧
      (animateExact s).rotation.z - s.rotation.z = 0.0001) := by
  rw [animateExact, animateIn_rotation_of_pos exactArith s h]
  simp only [exactArith, id]
  refine ⟨⟨by ring, by ring, by ring⟩, fun hx hy => ?_⟩
  rw [hx, hy]
  refine ⟨?_, ?_, ?_⟩ <;> norm_num <;> ring

/-- C1 at the sample state with `mouseX = 5`, `mouseY = 10`: the gate is open and the frame's
rotation delta is `(0.0009, 0.0006, 0.0001)`. -/
theorem C1_animate_delta_gate_open_witness :
    0 < (sampleRightBelow exactArith).mouseX ∧
    (animateExact (sampleRightBelow exactArith)).rotation.x
      - (sampleRightBelow exactArith).rotation.x = 0.0009 ∧
    (animateExact (sampleRightBelow exactArith)).rotation.y
      - (sampleRightBelow exactArith).rotation.y = 0.0006 ∧
    (animateExact (sampleRightBelow exactArith)).rotation.z
      - (sampleRightBelow exactArith).rotation.z = 0.0001 :=
  have hx : (sampleRightBelow exactArith).mouseX = 5 := by
    norm_num [sampleRightBelow, mousemove, sampleWindow]
  have hy : (sampleRightBelow exactArith).mouseY = 10 := by
    norm_num [sampleRightBelow, mousemove, sampleWindow]
  have h : 0 < (sampleRightBelow exactArith).mouseX := by rw [hx]; norm_num
  ⟨h, (C1_animate_delta_gate_open (sampleRightBelow exactArith) h).2 hx hy⟩

/-! ## The listeners -/

/-- C4. For every viewport width `W` and height `H > 0`, the resize listener leaves the camera
aspect equal to `W / H` and the renderer size equal to `W` by `H`, whatever they were before. -/
theorem C4_resize_sets_aspect_and_size {α : Type} (w : Window) (s : State α)
    (h : 0 < w.innerHeight) :
    (resize w s).camera.aspect = Num.fin (w.innerWidth / w.innerHeight) ∧
    (resize w s).renderer.width = w.innerWidth ∧
    (resize w s).renderer.height = w.innerHeight := by
  refine ⟨?_, rfl, rfl⟩
  simp [resize, Camera.updateProjectionMatrix, Num.div, ne_of_gt h]

/-- C4 at the sample state resized to 1024 by 768: the aspect is `4 / 3`. -/
theorem C4_resize_sets_aspect_and_size_witness :
    (resize ⟨1024, 768, 1⟩ (sampleRightBelow binary64)).camera.aspect = Num.fin (4 / 3) ∧
    (resize ⟨1024, 768, 1⟩ (sampleRightBelow binary64)).renderer.width = 1024 ∧
    (resize ⟨1024, 768, 1⟩ (sampleRightBelow binary64)).renderer.height = 768 := by
  have h := C4_resize_sets_aspect_and_size ⟨1024, 768, 1⟩ (sampleRightBelow binary64)
    (by norm_num)
  refine ⟨?_, h.2.1, h.2.2⟩
  rw [h.1]
  norm_num

/-- C5. The resize listener is idempotent: run twice with the same viewport it leaves the state
it leaves when run once. -/
theorem C5_resize_idempotent {α : Type} (w : Window) (s : State α) :
    resize w (resize w s) = resize w s := rfl

/-- C7. After the pointer listener runs, `mouseX = clientX − W / 2` and
`mouseY = clientY − H / 2`, and the state it leaves does not depend on the pointer state before. -/
theorem C7_mousemove_sets_offsets {α : Type} (w : Window) (clientX clientY : ℚ)
    (s : State α) :
    (mousemove w clientX clientY s).mouseX = clientX - w.innerWidth / 2 ∧
    (mousemove w clientX clientY s).mouseY = clientY - w.innerHeight / 2 ∧
    ∀ a b : ℚ, mousemove w clientX clientY { s with mouseX := a, mouseY := b } =
      mousemove w clientX clientY s :=
  ⟨rfl, rfl, fun _ _ => rfl⟩

/-- C9. A frame leaves the particle buffer, the pointer state, the camera and the renderer as
they were: the rotation is the only variable it assigns. -/
theorem C9_animate_frame (s : State Num) :
    (animate s).posArray = s.posArray ∧
    (animate s).mouseX = s.mouseX ∧ (animate s).mouseY = s.mouseY ∧
    (animate s).camera = s.camera ∧ (animate s).renderer = s.renderer ∧
    animate s = { s with rotation := (animate s).rotation } :=
  ⟨rfl, rfl, rfl, rfl, rfl, rfl⟩

/-! ## Interleavings -/

/-- One callback is a frame's addition to `rotation.z` if it is a frame, and leaves it
otherwise. -/
theorem step_rotation_z {α : Type} (A : Arith α) (s : State α) (e : Event) :
    (step A s e).rotation.z = addN A 0.0001 (frames [e]) s.rotation.z := by
  cases e with
  | frame => simp [step, frames, addN, animateIn_rotation_z]
  | pointer w cx cy => simp [step, frames, addN, mousemove]
  | resized w => simp [step, frames, addN, resize]

/-- Additions compose. -/
theorem addN_add {α : Type} (A : Arith α) (c : ℚ) (m n : ℕ) (v : α) :
    addN A c (m + n) v = addN A c n (addN A c m v) := by
  induction m generalizing v with
  | zero => simp [addN]
  | succ m ih => rw [Nat.succ_add, addN, ih, addN]

/-- The frame count of an interleaving is the sum over its events. -/
theorem frames_cons (e : Event) (es : List Event) : frames (e :: es) = frames [e] + frames es := by
  cases e <;> simp [frames, Nat.add_comm]

/-- Over an interleaving `rotation.z` goes through one addition of `0.0001` per frame. -/
theorem run_rotation_z {α : Type} (A : Arith α) (es : List Event) (s : State α) :
    (run A s es).rotation.z = addN A 0.0001 (frames es) s.rotation.z := by
  induction es generalizing s with
  | nil => rfl
  | cons e l ih =>
    have h := ih (step A s e)
    rw [run] at h
    rw [run, List.foldl_cons, h, step_rotation_z, frames_cons e l, addN_add]


/-! ## Rounding to the nearest integer -/

/-- Rounding to the nearest integer stays at or below an integer bound. -/
theorem roundHalfEven_le (x : ℚ) (m : ℤ) (h : x ≤ m) : roundHalfEven x ≤ m := by
  have hf : ⌊x⌋ ≤ m := by
    have := Int.floor_le x
    exact_mod_cast le_trans this h
  unfold roundHalfEven
  simp only
  by_cases hr : x - ⌊x⌋ < 1 / 2
  · rw [if_pos hr]; exact hf
  · have hlt : (⌊x⌋ : ℚ) < x := by
      have : (1 : ℚ) / 2 ≤ x - ⌊x⌋ := not_lt.mp hr
      linarith
    have hxm : ⌊x⌋ < m := by
      have : (⌊x⌋ : ℚ) < m := lt_of_lt_of_le hlt h
      exact_mod_cast this
    rw [if_neg hr]
    split_ifs <;> omega

/-- Rounding to the nearest integer stays at or above an integer bound. -/
theorem le_roundHalfEven (x : ℚ) (m : ℤ) (h : (m : ℚ) ≤ x) : m ≤ roundHalfEven x := by
  have hf : m ≤ ⌊x⌋ := Int.le_floor.mpr h
  unfold roundHalfEven
  simp only
  split_ifs <;> omega

/-- The rounded integer is the floor or the floor plus one. -/
theorem roundHalfEven_floor (x : ℚ) : ⌊x⌋ ≤ roundHalfEven x ∧ roundHalfEven x ≤ ⌊x⌋ + 1 := by
  unfold roundHalfEven
  simp only
  split_ifs <;> omega

/-- Rounding to the nearest integer is monotone. -/
theorem roundHalfEven_mono (x y : ℚ) (h : x ≤ y) : roundHalfEven x ≤ roundHalfEven y := by
  have hfl : ⌊x⌋ ≤ ⌊y⌋ := Int.floor_le_floor h
  rcases lt_or_eq_of_le hfl with hlt | heq
  · have h1 := (roundHalfEven_floor x).2
    have h2 := (roundHalfEven_floor y).1
    omega
  · have hr : x - ⌊x⌋ ≤ y - ⌊y⌋ := by rw [heq]; linarith
    unfold roundHalfEven
    simp only
    rw [heq]
    rw [heq] at hr
    by_cases h1 : x - ⌊y⌋ < 1 / 2
    · rw [if_pos h1]
      split_ifs <;> omega
    · rw [if_neg h1]
      have h1' : (1 : ℚ) / 2 ≤ x - ⌊y⌋ := not_lt.mp h1
      have h2 : ¬ (y - ⌊y⌋ < 1 / 2) := by
        intro hc; linarith
      rw [if_neg h2]
      by_cases h3 : (1 : ℚ) / 2 < x - ⌊y⌋
      · rw [if_pos h3, if_pos (lt_of_lt_of_le h3 hr)]
      · rw [if_neg h3]
        split_ifs <;> omega

/-- A value within a half of an integer rounds to it. -/
theorem roundHalfEven_eq_of_abs_lt (x : ℚ) (m : ℤ) (h : |x - m| < 1 / 2) :
    roundHalfEven x = m := by
  rw [abs_lt] at h
  obtain ⟨h1, h2⟩ := h
  rcases le_or_lt (m : ℚ) x with hm | hm
  · have hf : ⌊x⌋ = m := Int.floor_eq_iff.mpr ⟨hm, by linarith⟩
    unfold roundHalfEven
    simp only [hf]
    rw [if_pos (by linarith)]
  · have hf : ⌊x⌋ = m - 1 := Int.floor_eq_iff.mpr ⟨by push_cast; linarith, by push_cast; linarith⟩
    unfold roundHalfEven
    simp only [hf]
    rw [if_neg (by push_cast; linarith), if_pos (by push_cast; linarith)]
    omega

/-- Rounding to the nearest integer commutes with negation. -/
theorem roundHalfEven_neg (x : ℚ) : roundHalfEven (-x) = -roundHalfEven x := by
  by_cases hint : (⌊x⌋ : ℚ) = x
  · have hf : ⌊-x⌋ = -⌊x⌋ := by
      rw [← hint, ← Int.cast_neg, Int.floor_intCast, Int.floor_intCast]
    unfold roundHalfEven
    simp only [hf]
    have e1 : x - ⌊x⌋ = 0 := by rw [hint]; ring
    have e2 : -x - ((-⌊x⌋ : ℤ) : ℚ) = 0 := by push_cast; rw [hint]; ring
    rw [e1, e2, if_pos (by norm_num), if_pos (by norm_num)]
  · have hlt : (⌊x⌋ : ℚ) < x := lt_of_le_of_ne (Int.floor_le x) hint
    have hlt2 : x < ⌊x⌋ + 1 := Int.lt_floor_add_one x
    have hf : ⌊-x⌋ = -⌊x⌋ - 1 := by
      apply Int.floor_eq_iff.mpr
      constructor
      · push_cast; linarith
      · push_cast; linarith
    unfold roundHalfEven
    simp only [hf]
    have e : -x - ((-⌊x⌋ - 1 : ℤ) : ℚ) = 1 - (x - ⌊x⌋) := by push_cast; ring
    rw [e]
    split_ifs <;> first | omega | (exfalso; linarith)


/-! ## The binary exponent -/

/-- The absolute value of a rational from its numerator and denominator. -/
theorem abs_eq_natAbs_div_den (x : ℚ) : |x| = (x.num.natAbs : ℚ) / (x.den : ℚ) := by
  conv_lhs => rw [← Rat.num_div_den x]
  rw [abs_div, Nat.abs_cast, Nat.cast_natAbs, Int.cast_abs]

/-- A difference of natural exponents as a quotient of powers of two. -/
theorem two_zpow_sub (a b : ℕ) : (2 : ℚ) ^ ((a : ℤ) - (b : ℤ)) = (2 : ℚ) ^ a / (2 : ℚ) ^ b := by
  rw [zpow_sub₀ (by norm_num), zpow_natCast, zpow_natCast]

/-- The lower half of the specification of `binExp`. -/
theorem binExp_le_abs (x : ℚ) (hx : x ≠ 0) : (2 : ℚ) ^ binExp x ≤ |x| := by
  unfold binExp
  simp only
  split_ifs with h
  · exact h
  · have hn : x.num.natAbs ≠ 0 := by simpa using hx
    have h1 : ((2 : ℚ) ^ (Nat.log2 x.num.natAbs)) ≤ (x.num.natAbs : ℚ) := by
      exact_mod_cast Nat.log2_self_le hn
    have h2 : (x.den : ℚ) < (2 : ℚ) ^ (Nat.log2 x.den + 1) := by
      exact_mod_cast (Nat.lt_log2_self : x.den < 2 ^ (x.den.log2 + 1))
    have hd : (0 : ℚ) < x.den := by exact_mod_cast x.den_pos
    rw [abs_eq_natAbs_div_den, le_div_iff₀ hd]
    have e : (2 : ℚ) ^ ((Nat.log2 x.num.natAbs : ℤ) - (Nat.log2 x.den : ℤ) - 1)
        = (2 : ℚ) ^ (Nat.log2 x.num.natAbs) / (2 : ℚ) ^ (Nat.log2 x.den + 1) := by
      rw [← two_zpow_sub]
      congr 1
      push_cast
      ring
    rw [e, div_mul_eq_mul_div, div_le_iff₀ (by positivity)]
    calc (2 : ℚ) ^ (Nat.log2 x.num.natAbs) * x.den
        ≤ x.num.natAbs * x.den := by gcongr
      _ ≤ x.num.natAbs * (2 : ℚ) ^ (Nat.log2 x.den + 1) := by gcongr

/-- The upper half of the specification of `binExp`. -/
theorem abs_lt_binExp_succ (x : ℚ) (hx : x ≠ 0) : |x| < (2 : ℚ) ^ (binExp x + 1) := by
  unfold binExp
  simp only
  split_ifs with h
  · have h1 : (x.num.natAbs : ℚ) < (2 : ℚ) ^ (Nat.log2 x.num.natAbs + 1) := by
      exact_mod_cast (Nat.lt_log2_self : x.num.natAbs < 2 ^ (x.num.natAbs.log2 + 1))
    have h2 : (2 : ℚ) ^ (Nat.log2 x.den) ≤ (x.den : ℚ) := by
      exact_mod_cast Nat.log2_self_le x.den_nz
    have hd : (0 : ℚ) < x.den := by exact_mod_cast x.den_pos
    have e : (2 : ℚ) ^ ((Nat.log2 x.num.natAbs : ℤ) - (Nat.log2 x.den : ℤ) + 1)
        = (2 : ℚ) ^ (Nat.log2 x.num.natAbs + 1) / (2 : ℚ) ^ (Nat.log2 x.den) := by
      rw [← two_zpow_sub]
      congr 1
      push_cast
      ring
    rw [abs_eq_natAbs_div_den, div_lt_iff₀ hd, e, div_mul_eq_mul_div, lt_div_iff₀ (by positivity)]
    calc (x.num.natAbs : ℚ) * (2 : ℚ) ^ (Nat.log2 x.den)
        ≤ x.num.natAbs * x.den := by gcongr
      _ < (2 : ℚ) ^ (Nat.log2 x.num.natAbs + 1) * x.den := by gcongr
  · rw [sub_add_cancel]
    exact not_le.mp h

/-- The binary exponent is the only `e` with `2 ^ e ≤ |x| < 2 ^ (e + 1)`. -/
theorem binExp_eq (x : ℚ) (e : ℤ) (h1 : (2 : ℚ) ^ e ≤ |x|) (h2 : |x| < (2 : ℚ) ^ (e + 1)) :
    binExp x = e := by
  have hx : x ≠ 0 := by
    intro h0
    rw [h0, abs_zero] at h1
    exact absurd h1 (not_le.mpr (by positivity))
  have a1 := binExp_le_abs x hx
  have a2 := abs_lt_binExp_succ x hx
  have two : (1 : ℚ) < 2 := by norm_num
  have b1 : e < binExp x + 1 := (zpow_lt_zpow_iff_right₀ two).mp (lt_of_le_of_lt h1 a2)
  have b2 : binExp x < e + 1 := (zpow_lt_zpow_iff_right₀ two).mp (lt_of_le_of_lt a1 h2)
  omega

/-- The binary exponent depends on the magnitude only. -/
theorem binExp_neg (x : ℚ) : binExp (-x) = binExp x := by
  unfold binExp
  simp only [Rat.neg_num, Rat.neg_den, Int.natAbs_neg, abs_neg]

/-- The binary exponent is monotone in the magnitude. -/
theorem binExp_mono (x y : ℚ) (hx : 0 < x) (h : x ≤ y) : binExp x ≤ binExp y := by
  have hy : 0 < y := lt_of_lt_of_le hx h
  have a1 := binExp_le_abs x hx.ne'
  have a2 := abs_lt_binExp_succ y hy.ne'
  rw [abs_of_pos hx] at a1
  rw [abs_of_pos hy] at a2
  have two : (1 : ℚ) < 2 := by norm_num
  have : binExp x < binExp y + 1 :=
    (zpow_lt_zpow_iff_right₀ two).mp (lt_of_le_of_lt (le_trans a1 h) a2)
  omega

/-! ## Rounding to a binary format -/

/-- The value `roundBinary` gives a non-zero argument. -/
theorem roundBinary_of_ne (p : ℕ) (emin : ℤ) (x : ℚ) (hx : x ≠ 0) :
    roundBinary p emin x =
      (roundHalfEven (x / 2 ^ (max (binExp x) emin - ((p : ℤ) - 1))) : ℚ) *
        2 ^ (max (binExp x) emin - ((p : ℤ) - 1)) := by
  unfold roundBinary
  rw [if_neg hx]

/-- Zero is rounded to zero. -/
theorem roundBinary_zero (p : ℕ) (emin : ℤ) : roundBinary p emin 0 = 0 := by
  unfold roundBinary
  rw [if_pos rfl]

/-- Rounding commutes with negation. -/
theorem roundBinary_neg (p : ℕ) (emin : ℤ) (x : ℚ) :
    roundBinary p emin (-x) = -roundBinary p emin x := by
  by_cases hx : x = 0
  · rw [hx, neg_zero, roundBinary_zero, neg_zero]
  · rw [roundBinary_of_ne p emin (-x) (neg_ne_zero.mpr hx), roundBinary_of_ne p emin x hx,
      binExp_neg, neg_div, roundHalfEven_neg]
    push_cast
    ring

/-- An integer multiple of the quantum of `x` that is at most `x` is at most its rounding. -/
theorem mul_quantum_le_roundBinary (p : ℕ) (emin : ℤ) (x : ℚ) (hx : x ≠ 0) (m : ℤ)
    (h : (m : ℚ) * 2 ^ (max (binExp x) emin - ((p : ℤ) - 1)) ≤ x) :
    (m : ℚ) * 2 ^ (max (binExp x) emin - ((p : ℤ) - 1)) ≤ roundBinary p emin x := by
  have hq : (0 : ℚ) < 2 ^ (max (binExp x) emin - ((p : ℤ) - 1)) := by positivity
  rw [roundBinary_of_ne p emin x hx]
  apply mul_le_mul_of_nonneg_right _ hq.le
  have : m ≤ roundHalfEven (x / 2 ^ (max (binExp x) emin - ((p : ℤ) - 1))) := by
    apply le_roundHalfEven
    rw [le_div_iff₀ hq]
    exact h
  exact_mod_cast this

/-- An integer multiple of the quantum of `x` that is at least `x` is at least its rounding. -/
theorem roundBinary_le_mul_quantum (p : ℕ) (emin : ℤ) (x : ℚ) (hx : x ≠ 0) (m : ℤ)
    (h : x ≤ (m : ℚ) * 2 ^ (max (binExp x) emin - ((p : ℤ) - 1))) :
    roundBinary p emin x ≤ (m : ℚ) * 2 ^ (max (binExp x) emin - ((p : ℤ) - 1)) := by
  have hq : (0 : ℚ) < 2 ^ (max (binExp x) emin - ((p : ℤ) - 1)) := by positivity
  rw [roundBinary_of_ne p emin x hx]
  apply mul_le_mul_of_nonneg_right _ hq.le
  have : roundHalfEven (x / 2 ^ (max (binExp x) emin - ((p : ℤ) - 1))) ≤ m := by
    apply roundHalfEven_le
    rw [div_le_iff₀ hq]
    exact h
  exact_mod_cast this

/-- A power of two is an integer multiple of every smaller power of two. -/
theorem two_zpow_eq_mul (a b : ℤ) (h : b ≤ a) :
    (2 : ℚ) ^ a = ((2 ^ (a - b).toNat : ℤ) : ℚ) * 2 ^ b := by
  have e : a = ((a - b).toNat : ℤ) + b := by omega
  conv_lhs => rw [e]
  rw [zpow_add₀ (by norm_num), zpow_natCast]
  push_cast
  ring

/-- A non-negative value is rounded to a non-negative value. -/
theorem roundBinary_nonneg (p : ℕ) (emin : ℤ) (x : ℚ) (h : 0 ≤ x) :
    0 ≤ roundBinary p emin x := by
  by_cases hx : x = 0
  · rw [hx, roundBinary_zero]
  · have := mul_quantum_le_roundBinary p emin x hx 0 (by simpa using h)
    simpa using this

/-- Rounding is monotone on the positive rationals. -/
theorem roundBinary_mono_pos (p : ℕ) (emin : ℤ) (hp : 1 ≤ p) (x y : ℚ) (hx : 0 < x)
    (h : x ≤ y) : roundBinary p emin x ≤ roundBinary p emin y := by
  have hy : 0 < y := lt_of_lt_of_le hx h
  have hb : binExp x ≤ binExp y := binExp_mono x y hx h
  have he : max (binExp x) emin ≤ max (binExp y) emin := max_le_max hb (le_refl _)
  rcases eq_or_lt_of_le he with heq | hlt
  · rw [roundBinary_of_ne p emin x hx.ne', roundBinary_of_ne p emin y hy.ne', heq]
    have hq : (0 : ℚ) < 2 ^ (max (binExp y) emin - ((p : ℤ) - 1)) := by positivity
    apply mul_le_mul_of_nonneg_right _ hq.le
    have := roundHalfEven_mono _ _ (div_le_div_of_nonneg_right h hq.le)
    exact_mod_cast this
  · have hey : max (binExp y) emin = binExp y := by
      rcases le_total (binExp y) emin with hc | hc
      · rw [max_eq_right hc] at hlt
        have := le_max_right (binExp x) emin
        omega
      · exact max_eq_left hc
    have hp' : (1 : ℤ) ≤ (p : ℤ) := by exact_mod_cast hp
    have hbx : binExp x + 1 ≤ binExp y := by
      have := le_max_left (binExp x) emin
      omega
    have two : (1 : ℚ) ≤ 2 := by norm_num
    have hxT : x ≤ (2 : ℚ) ^ binExp y := by
      have a2 := abs_lt_binExp_succ x hx.ne'
      rw [abs_of_pos hx] at a2
      exact le_trans a2.le (zpow_le_zpow_right₀ two hbx)
    have hTy : (2 : ℚ) ^ binExp y ≤ y := by
      have a1 := binExp_le_abs y hy.ne'
      rwa [abs_of_pos hy] at a1
    have e1 := two_zpow_eq_mul (binExp y) (max (binExp x) emin - ((p : ℤ) - 1)) (by omega)
    have e2 := two_zpow_eq_mul (binExp y) (max (binExp y) emin - ((p : ℤ) - 1)) (by omega)
    have r1 := roundBinary_le_mul_quantum p emin x hx.ne' _ (by rw [← e1]; exact hxT)
    have r2 := mul_quantum_le_roundBinary p emin y hy.ne' _ (by rw [← e2]; exact hTy)
    rw [← e1] at r1
    rw [← e2] at r2
    exact le_trans r1 r2

/-- Rounding to a binary format is monotone. -/
theorem roundBinary_mono (p : ℕ) (emin : ℤ) (hp : 1 ≤ p) (x y : ℚ) (h : x ≤ y) :
    roundBinary p emin x ≤ roundBinary p emin y := by
  rcases lt_trichotomy 0 x with hx | hx | hx
  · exact roundBinary_mono_pos p emin hp x y hx h
  · rw [← hx, roundBinary_zero]
    exact roundBinary_nonneg p emin y (by rw [hx]; exact h)
  · rcases le_or_lt 0 y with hy | hy
    · have h1 : roundBinary p emin x ≤ 0 := by
        have := roundBinary_nonneg p emin (-x) (by linarith)
        rw [roundBinary_neg] at this
        linarith
      exact le_trans h1 (roundBinary_nonneg p emin y hy)
    · have := roundBinary_mono_pos p emin hp (-y) (-x) (by linarith) (by linarith)
      rw [roundBinary_neg, roundBinary_neg] at this
      linarith


/-! ## Conversion to binary32 and binary64 -/

/-- Conversion to a binary format is monotone for the comparison of Numbers. -/
theorem toBinary_mono (p : ℕ) (emin : ℤ) (emax : ℕ) (hp : 1 ≤ p) (x y : ℚ) (h : x ≤ y) :
    Num.le (toBinary p emin emax x) (toBinary p emin emax y) := by
  have hr := roundBinary_mono p emin hp x y h
  have hT : (0 : ℚ) < 2 ^ emax := by positivity
  unfold toBinary
  simp only
  split_ifs <;> simp only [Num.le] <;> linarith

/-- Between two values that the format represents, a value is converted to a finite value
between them. -/
theorem toBinary_between (p : ℕ) (emin : ℤ) (emax : ℕ) (hp : 1 ≤ p) (lo hi x : ℚ)
    (hlo : toBinary p emin emax lo = Num.fin lo) (hhi : toBinary p emin emax hi = Num.fin hi)
    (h1 : lo ≤ x) (h2 : x ≤ hi) :
    ∃ y, toBinary p emin emax x = Num.fin y ∧ lo ≤ y ∧ y ≤ hi := by
  have a := toBinary_mono p emin emax hp lo x h1
  have b := toBinary_mono p emin emax hp x hi h2
  rw [hlo] at a
  rw [hhi] at b
  cases hx : toBinary p emin emax x with
  | fin y =>
    rw [hx] at a b
    exact ⟨y, rfl, a, b⟩
  | posInf => rw [hx] at b; exact absurd b (by simp [Num.le])
  | negInf => rw [hx] at a; exact absurd a (by simp [Num.le])
  | nan => rw [hx] at a; exact absurd a (by simp [Num.le])

/-- The value of a conversion, from the binary exponent `e` of the argument and the integer `m`
nearest to the argument on the grid of that exponent. -/
theorem toBinary_eq (p : ℕ) (emin : ℤ) (emax : ℕ) (x y : ℚ) (e m : ℤ)
    (h1 : (2 : ℚ) ^ e ≤ |x|) (h2 : |x| < (2 : ℚ) ^ (e + 1)) (hmin : emin ≤ e)
    (hy : y = (m : ℚ) * 2 ^ (e - ((p : ℤ) - 1)))
    (hm1 : (m : ℚ) - 1 / 2 < x / 2 ^ (e - ((p : ℤ) - 1)))
    (hm2 : x / 2 ^ (e - ((p : ℤ) - 1)) < (m : ℚ) + 1 / 2)
    (hlo : -(2 : ℚ) ^ emax < y) (hhi : y < (2 : ℚ) ^ emax) :
    toBinary p emin emax x = Num.fin y := by
  have hx : x ≠ 0 := by
    intro h0
    rw [h0, abs_zero] at h1
    exact absurd h1 (not_le.mpr (by positivity))
  have he : binExp x = e := binExp_eq x e h1 h2
  have hr : roundBinary p emin x = y := by
    rw [roundBinary_of_ne p emin x hx, he, max_eq_left hmin, hy]
    congr 2
    apply roundHalfEven_eq_of_abs_lt
    rw [abs_lt]
    constructor <;> linarith
  unfold toBinary
  simp only [hr]
  rw [if_neg (not_le.mpr hhi), if_neg (not_le.mpr hlo)]

/-- The value of a conversion to binary64. -/
theorem toFloat64_eq (x y : ℚ) (e m : ℤ)
    (h1 : (2 : ℚ) ^ e ≤ |x|) (h2 : |x| < (2 : ℚ) ^ (e + 1)) (hmin : -1022 ≤ e)
    (hy : y = (m : ℚ) * 2 ^ (e - 52))
    (hm1 : (m : ℚ) - 1 / 2 < x / 2 ^ (e - 52)) (hm2 : x / 2 ^ (e - 52) < (m : ℚ) + 1 / 2)
    (hlo : -(2 : ℚ) ^ 1024 < y) (hhi : y < (2 : ℚ) ^ 1024) :
    toFloat64 x = Num.fin y := by
  have e53 : ((53 : ℕ) : ℤ) - 1 = 52 := by norm_num
  exact toBinary_eq 53 (-1022) 1024 x y e m h1 h2 hmin (by rw [e53]; exact hy)
    (by rw [e53]; exact hm1) (by rw [e53]; exact hm2) hlo hhi

/-- The value of a conversion to binary32. -/
theorem toFloat32_eq (x y : ℚ) (e m : ℤ)
    (h1 : (2 : ℚ) ^ e ≤ |x|) (h2 : |x| < (2 : ℚ) ^ (e + 1)) (hmin : -126 ≤ e)
    (hy : y = (m : ℚ) * 2 ^ (e - 23))
    (hm1 : (m : ℚ) - 1 / 2 < x / 2 ^ (e - 23)) (hm2 : x / 2 ^ (e - 23) < (m : ℚ) + 1 / 2)
    (hlo : -(2 : ℚ) ^ 128 < y) (hhi : y < (2 : ℚ) ^ 128) :
    toFloat32 x = Num.fin y := by
  have e24 : ((24 : ℕ) : ℤ) - 1 = 23 := by norm_num
  exact toBinary_eq 24 (-126) 128 x y e m h1 h2 hmin (by rw [e24]; exact hy)
    (by rw [e24]; exact hm1) (by rw [e24]; exact hm2) hlo hhi

/-- Zero is a binary64 value. -/
theorem toFloat64_zero : toFloat64 0 = Num.fin 0 := by
  unfold toFloat64 toBinary
  simp only [roundBinary_zero]
  rw [if_neg (by norm_num), if_neg (by norm_num)]

/-- A check of `toFloat32` against `Math.fround(0.1) = 0.10000000149011612`, which is
`13421773 / 2 ^ 27`. -/
theorem toFloat32_tenth : toFloat32 0.1 = Num.fin (13421773 / 2 ^ 27) := by
  apply toFloat32_eq _ _ (-4) 13421773 <;> norm_num [abs_of_pos]

/-- The literal `0.0001` is the binary64 value `c0001`. -/
theorem lit_0001 : toFloat64 0.0001 = Num.fin c0001 := by
  apply toFloat64_eq _ _ (-14) 7378697629483821 <;> norm_num [abs_of_pos, c0001]

/-- The literal `0.0002` is the binary64 value `c0002`. -/
theorem lit_0002 : toFloat64 0.0002 = Num.fin c0002 := by
  apply toFloat64_eq _ _ (-13) 7378697629483821 <;> norm_num [abs_of_pos, c0002]

/-- The literal `0.00008` is the binary64 value `c00008`. -/
theorem lit_00008 : toFloat64 0.00008 = Num.fin c00008 := by
  apply toFloat64_eq _ _ (-14) 5902958103587057 <;> norm_num [abs_of_pos, c00008]

/-- The literal `0.5` is a binary64 value. -/
theorem lit_half : toFloat64 0.5 = Num.fin (1 / 2) := by
  apply toFloat64_eq _ _ (-1) (2 ^ 52) <;> norm_num [abs_of_pos]

/-- The literal `100` is a binary64 value. -/
theorem lit_100 : toFloat64 100 = Num.fin 100 := by
  apply toFloat64_eq _ _ 6 (25 * 2 ^ 48) <;> norm_num [abs_of_pos]


/-! ## Accumulated drift in binary64 -/

/-- The first addition of the drift to a zero angle. -/
theorem drift_one : toFloat64 (0 + c0001) = Num.fin c0001 := by
  apply toFloat64_eq _ _ (-14) 7378697629483821 <;> norm_num [abs_of_pos, c0001]

/-- The second addition of the drift. -/
theorem drift_two : toFloat64 (c0001 + c0001) = Num.fin c0002 := by
  apply toFloat64_eq _ _ (-13) 7378697629483821 <;> norm_num [abs_of_pos, c0001, c0002]

/-- The third addition of the drift: `0.00030000000000000003`. -/
theorem drift_three : toFloat64 (c0002 + c0001) = Num.fin (5534023222112866 / 2 ^ 64) := by
  apply toFloat64_eq _ _ (-12) 5534023222112866 <;> norm_num [abs_of_pos, c0001, c0002]

/-- The fourth addition of the drift: `0.0004`. -/
theorem drift_four :
    toFloat64 (5534023222112866 / 2 ^ 64 + c0001) = Num.fin (7378697629483821 / 2 ^ 64) := by
  apply toFloat64_eq _ _ (-12) 7378697629483821 <;> norm_num [abs_of_pos, c0001]

/-- The fifth addition of the drift: `0.0005`. -/
theorem drift_five :
    toFloat64 (7378697629483821 / 2 ^ 64 + c0001) = Num.fin (4611686018427388 / 2 ^ 63) := by
  apply toFloat64_eq _ _ (-11) 4611686018427388 <;> norm_num [abs_of_pos, c0001]

/-- The sixth addition of the drift: `0.0006000000000000001`. -/
theorem drift_six :
    toFloat64 (4611686018427388 / 2 ^ 63 + c0001) = Num.fin (5534023222112866 / 2 ^ 63) := by
  apply toFloat64_eq _ _ (-11) 5534023222112866 <;> norm_num [abs_of_pos, c0001]

/-- The seventh addition of the drift: `0.0007000000000000001`. -/
theorem drift_seven :
    toFloat64 (5534023222112866 / 2 ^ 63 + c0001) = Num.fin (6456360425798344 / 2 ^ 63) := by
  apply toFloat64_eq _ _ (-11) 6456360425798344 <;> norm_num [abs_of_pos, c0001]

/-- One binary64 addition of the literal `0.0001` to a finite angle. -/
theorem addN_succ_0001 (n : ℕ) (a : ℚ) :
    addN binary64 0.0001 (n + 1) (Num.fin a) = addN binary64 0.0001 n (toFloat64 (a + c0001)) := by
  rw [addN]
  show addN binary64 0.0001 n (Num.add toFloat64 (Num.fin a) (toFloat64 0.0001)) = _
  rw [lit_0001]
  rfl

/-- Seven binary64 additions of `0.0001` to zero give `0.0007000000000000001`. -/
theorem addN_seven :
    addN binary64 0.0001 7 (Num.fin 0) = Num.fin (6456360425798344 / 2 ^ 63) := by
  rw [addN_succ_0001, drift_one, addN_succ_0001, drift_two, addN_succ_0001, drift_three,
    addN_succ_0001, drift_four, addN_succ_0001, drift_five, addN_succ_0001, drift_six,
    addN_succ_0001, drift_seven]
  rfl

/-- Two binary64 additions of `0.0001` to zero give `0.0002`. -/
theorem addN_two : addN binary64 0.0001 2 (Num.fin 0) = Num.fin c0002 := by
  rw [addN_succ_0001, drift_one, addN_succ_0001, drift_two]
  rfl

/-- The binary64 product `0.0001 * 7` is `0.0007`, one unit in the last place below the
seven-fold sum. -/
theorem product_seven :
    Num.mul toFloat64 (toFloat64 0.0001) (Num.fin 7) = Num.fin (6456360425798343 / 2 ^ 63) := by
  rw [lit_0001]
  simp only [Num.mul]
  apply toFloat64_eq _ _ (-11) 6456360425798343 <;> norm_num [abs_of_pos, c0001]

/-- The binary64 difference of the angles after the third and the second addition is
`0.00010000000000000002`. -/
theorem difference_three :
    Num.sub toFloat64 (Num.fin (5534023222112866 / 2 ^ 64)) (Num.fin c0002) =
      Num.fin (7378697629483822 / 2 ^ 66) := by
  simp only [Num.sub, Num.neg, Num.add]
  apply toFloat64_eq _ _ (-14) 7378697629483822 <;> norm_num [abs_of_pos, c0002]

/-- At `10 ^ 13` the drift is below half a unit in the last place: the sum is `10 ^ 13`. -/
theorem drift_absorbed : toFloat64 (10 ^ 13 + c0001) = Num.fin (10 ^ 13) := by
  apply toFloat64_eq _ _ 43 5120000000000000 <;> norm_num [abs_of_pos, c0001]


/-- The value `-10` is a binary64 value. -/
theorem toFloat64_neg_ten : toFloat64 (-10) = Num.fin (-10) := by
  apply toFloat64_eq _ _ 3 (-(5 * 2 ^ 50)) <;> norm_num [abs_of_pos]

/-- The pointer term of a frame at `mouseY = -10`: the binary64 product `-10 * 0.00008`. -/
theorem pointer_term_above :
    toFloat64 (-10 * c00008) = Num.fin (-7378697629483821 / 2 ^ 63) := by
  apply toFloat64_eq _ _ (-11) (-7378697629483821) <;> norm_num [abs_of_neg, c00008]

/-- The angle `0.0002` plus the pointer term at `mouseY = -10`:
`-0.0006000000000000001`. -/
theorem drift_above :
    toFloat64 (c0002 + -7378697629483821 / 2 ^ 63) = Num.fin (-5534023222112866 / 2 ^ 63) := by
  apply toFloat64_eq _ _ (-11) (-5534023222112866) <;> norm_num [abs_of_neg, c0002]

/-- The value `c0001` is a binary64 value. -/
theorem isFloat64_c0001 : isFloat64 c0001 := by
  unfold isFloat64
  apply toFloat64_eq _ _ (-14) 7378697629483821 <;> norm_num [abs_of_pos, c0001]

/-- The value `c0002` is a binary64 value. -/
theorem isFloat64_c0002 : isFloat64 c0002 := by
  unfold isFloat64
  apply toFloat64_eq _ _ (-13) 7378697629483821 <;> norm_num [abs_of_pos, c0002]

/-- The values `1 / 2` and `-1 / 2` are binary64 values. -/
theorem toFloat64_half : toFloat64 (1 / 2) = Num.fin (1 / 2) ∧
    toFloat64 (-(1 / 2)) = Num.fin (-(1 / 2)) := by
  constructor
  · apply toFloat64_eq _ _ (-1) (2 ^ 52) <;> norm_num [abs_of_pos]
  · apply toFloat64_eq _ _ (-1) (-2 ^ 52) <;> norm_num [abs_of_pos]

/-- The values `50` and `-50` are binary64 values. -/
theorem toFloat64_fifty : toFloat64 50 = Num.fin 50 ∧ toFloat64 (-50) = Num.fin (-50) := by
  constructor
  · apply toFloat64_eq _ _ 5 (25 * 2 ^ 48) <;> norm_num [abs_of_pos]
  · apply toFloat64_eq _ _ 5 (-(25 * 2 ^ 48)) <;> norm_num [abs_of_pos]

/-- The values `50` and `-50` are binary32 values. -/
theorem toFloat32_fifty : toFloat32 50 = Num.fin 50 ∧ toFloat32 (-50) = Num.fin (-50) := by
  constructor
  · apply toFloat32_eq _ _ 5 (25 * 2 ^ 19) <;> norm_num [abs_of_pos]
  · apply toFloat32_eq _ _ 5 (-(25 * 2 ^ 19)) <;> norm_num [abs_of_pos]

/-- The binary64 difference `nearOne - 0.5` is exact: `0.4999999999999998`. -/
theorem nearOne_minus_half :
    toFloat64 (nearOne + -(1 / 2)) = Num.fin (2251799813685247 / 2 ^ 52) := by
  apply toFloat64_eq _ _ (-2) 9007199254740988 <;> norm_num [abs_of_pos, nearOne]

/-- The binary64 product of that difference and 100: `49.99999999999998`. -/
theorem nearOne_times_hundred :
    toFloat64 (2251799813685247 / 2 ^ 52 * 100) = Num.fin (7036874417766397 / 2 ^ 47) := by
  apply toFloat64_eq _ _ 5 7036874417766397 <;> norm_num [abs_of_pos]

/-- The binary32 value nearest to `49.99999999999998` is 50. -/
theorem nearOne_stored : toFloat32 (7036874417766397 / 2 ^ 47) = Num.fin 50 := by
  apply toFloat32_eq _ _ 5 13107200 <;> norm_num [abs_of_pos]


/-! ## The frame in binary64 -/

/-- Consecutive frames leave the pointer state as it is. -/
theorem animateN_mouseX {α : Type} (A : Arith α) (n : ℕ) (s : State α) :
    (animateN A n s).mouseX = s.mouseX := by
  induction n generalizing s with
  | zero => rfl
  | succ n ih => rw [animateN, ih]; rfl

/-- The rotation of a binary64 frame when the pointer gate is closed. -/
theorem animate_rotation_of_nonpos (s : State Num) (h : s.mouseX ≤ 0) :
    (animate s).rotation =
      ⟨Num.add toFloat64 s.rotation.x (Num.fin c0001),
       Num.add toFloat64 s.rotation.y (Num.fin c0002),
       Num.add toFloat64 s.rotation.z (Num.fin c0001)⟩ := by
  rw [animate, animateIn_rotation_of_nonpos binary64 s h]
  show (⟨Num.add toFloat64 s.rotation.x (toFloat64 0.0001),
    Num.add toFloat64 s.rotation.y (toFloat64 0.0002),
    Num.add toFloat64 s.rotation.z (toFloat64 0.0001)⟩ : Vec3 Num) = _
  rw [lit_0001, lit_0002]

/-- The rotation of a binary64 frame when the pointer gate is open. -/
theorem animate_rotation_of_pos (s : State Num) (h : 0 < s.mouseX) :
    (animate s).rotation =
      ⟨Num.add toFloat64 (Num.add toFloat64 s.rotation.x (Num.fin c0001))
          (Num.mul toFloat64 (toFloat64 s.mouseY) (Num.fin c00008)),
       Num.add toFloat64 (Num.add toFloat64 s.rotation.y (Num.fin c0002))
          (Num.mul toFloat64 (toFloat64 s.mouseX) (Num.fin c00008)),
       Num.add toFloat64 s.rotation.z (Num.fin c0001)⟩ := by
  rw [animate, animateIn_rotation_of_pos binary64 s h]
  show (⟨Num.add toFloat64 (Num.add toFloat64 s.rotation.x (toFloat64 0.0001))
      (Num.mul toFloat64 (toFloat64 s.mouseY) (toFloat64 0.00008)),
    Num.add toFloat64 (Num.add toFloat64 s.rotation.y (toFloat64 0.0002))
      (Num.mul toFloat64 (toFloat64 s.mouseX) (toFloat64 0.00008)),
    Num.add toFloat64 s.rotation.z (toFloat64 0.0001)⟩ : Vec3 Num) = _
  rw [lit_0001, lit_0002, lit_00008]

/-- The angles of the initial state are zero. -/
theorem init_rotation (w : Window) (canvas : Renderer) (random : ℕ → ℚ) :
    (init binary64 w canvas random).rotation = ⟨Num.fin 0, Num.fin 0, Num.fin 0⟩ := by
  show (⟨toFloat64 0, toFloat64 0, toFloat64 0⟩ : Vec3 Num) = _
  rw [toFloat64_zero]

/-- C2, as stated, fails: in the sample script two frames after its start (`mouseX = 0`),
`rotation.x` is `0.0002` and the next frame takes it to `0.00030000000000000003`; the difference
is neither `0.0001` nor the binary64 value of `0.0001`, also when it is computed in binary64
(`0.00010000000000000002`). -/
theorem C2_third_frame_delta :
    (animateN binary64 2 (sampleInit binary64)).mouseX ≤ 0 ∧
    (animateN binary64 2 (sampleInit binary64)).rotation.x = Num.fin c0002 ∧
    (animate (animateN binary64 2 (sampleInit binary64))).rotation.x =
      Num.fin (5534023222112866 / 2 ^ 64) ∧
    (5534023222112866 / 2 ^ 64 - c0002 ≠ (0.0001 : ℚ) ∧
      5534023222112866 / 2 ^ 64 - c0002 ≠ c0001) ∧
    Num.sub toFloat64 (Num.fin (5534023222112866 / 2 ^ 64)) (Num.fin c0002) ≠
      toFloat64 0.0001 := by
  have hm : (animateN binary64 2 (sampleInit binary64)).mouseX ≤ 0 := by
    rw [animateN_mouseX]
    exact le_refl (0 : ℚ)
  have hx : (animateN binary64 2 (sampleInit binary64)).rotation.x = Num.fin c0002 := by
    rw [animateN_rotation_of_nonpos binary64 2 (sampleInit binary64) (le_refl (0 : ℚ)),
      sampleInit, init_rotation]
    exact addN_two
  refine ⟨hm, hx, ?_, ⟨?_, ?_⟩, ?_⟩
  · rw [animate_rotation_of_nonpos _ hm, hx]
    exact drift_three
  · norm_num [c0002]
  · norm_num [c0002, c0001]
  · rw [difference_three, lit_0001, Ne, Num.fin.injEq]
    norm_num [c0001]

/-- C2, amended. For every state with `mouseX ≤ 0` and every `mouseY`, the pointer adds nothing
to the rotation in a frame: the frame is the three drift additions, each rounded to binary64,
the same for every `mouseY`; in exact arithmetic the one-frame delta is exactly
`(0.0001, 0.0002, 0.0001)`. -/
theorem C2_gate_closed_drift_only (s : State Num) (t : State ℚ) (h : s.mouseX ≤ 0)
    (ht : t.mouseX ≤ 0) :
    (animate s).rotation =
      ⟨Num.add toFloat64 s.rotation.x (toFloat64 0.0001),
       Num.add toFloat64 s.rotation.y (toFloat64 0.0002),
       Num.add toFloat64 s.rotation.z (toFloat64 0.0001)⟩ ∧
    (∀ mouseY : ℚ, (animate { s with mouseY := mouseY }).rotation = (animate s).rotation) ∧
    ((animateExact t).rotation.x - t.rotation.x = 0.0001 ∧
      (animateExact t).rotation.y - t.rotation.y = 0.0002 ∧
      (animateExact t).rotation.z - t.rotation.z = 0.0001) := by
  refine ⟨?_, fun mouseY => ?_, ?_⟩
  · rw [animate_rotation_of_nonpos s h, lit_0001, lit_0002]
  · rw [animate_rotation_of_nonpos { s with mouseY := mouseY } h,
      animate_rotation_of_nonpos s h]
  · rw [animateExact, animateIn_rotation_of_nonpos exactArith t ht]
    simp only [exactArith, id]
    exact ⟨by ring, by ring, by ring⟩

/-- C2 amended, at the sample state with `mouseX = -5`, `mouseY = 1000`, in both
arithmetics. -/
theorem C2_gate_closed_drift_only_witness :
    ((sampleLeft binary64).mouseX = -5 ∧ (sampleLeft binary64).mouseY = 1000) ∧
    (animate (sampleLeft binary64)).rotation =
      ⟨Num.add toFloat64 (sampleLeft binary64).rotation.x (toFloat64 0.0001),
       Num.add toFloat64 (sampleLeft binary64).rotation.y (toFloat64 0.0002),
       Num.add toFloat64 (sampleLeft binary64).rotation.z (toFloat64 0.0001)⟩ ∧
    (animateExact (sampleLeft exactArith)).rotation.x
      - (sampleLeft exactArith).rotation.x = 0.0001 :=
  have hx : ∀ {α : Type} (A : Arith α), (sampleLeft A).mouseX = -5 := by
    intro α A
    norm_num [sampleLeft, mousemove, sampleWindow]
  have hy : (sampleLeft binary64).mouseY = 1000 := by
    norm_num [sampleLeft, mousemove, sampleWindow]
  have h := C2_gate_closed_drift_only (sampleLeft binary64) (sampleLeft exactArith)
    (by rw [hx]; norm_num) (by rw [hx]; norm_num)
  ⟨⟨hx binary64, hy⟩, h.1, h.2.2.1⟩

/-- C3, as stated, fails: in the sample script the seventh frame leaves
`rotation.x = 0.0007000000000000001`, which is neither `0.0001 × 7` nor the binary64 product
`0.0001 * 7` (`0.0007`). -/
theorem C3_seven_frames :
    (animateN binary64 7 (sampleInit binary64)).rotation.x =
      Num.fin (6456360425798344 / 2 ^ 63) ∧
    (6456360425798344 / 2 ^ 63 : ℚ) ≠ 0.0001 * 7 ∧
    Num.mul toFloat64 (toFloat64 0.0001) (Num.fin 7) = Num.fin (6456360425798343 / 2 ^ 63) ∧
    (animateN binary64 7 (sampleInit binary64)).rotation.x ≠
      Num.mul toFloat64 (toFloat64 0.0001) (Num.fin 7) := by
  have hx : (animateN binary64 7 (sampleInit binary64)).rotation.x =
      Num.fin (6456360425798344 / 2 ^ 63) := by
    rw [animateN_rotation_of_nonpos binary64 7 (sampleInit binary64) (le_refl (0 : ℚ)),
      sampleInit, init_rotation]
    exact addN_seven
  refine ⟨hx, by norm_num, product_seven, ?_⟩
  rw [hx, product_seven, Ne, Num.fin.injEq]
  norm_num

/-- C3, amended. From the initial state, with no pointer event delivered, the rotation after
`N` invocations of `animate` is, on each axis, the result of `N` additions of the drift to zero,
each rounded to binary64; in exact arithmetic it is `(0.0001 × N, 0.0002 × N, 0.0001 × N)`. -/
theorem C3_rotation_after_frames (w : Window) (canvas : Renderer) (random : ℕ → ℚ) (N : ℕ) :
    (animateN binary64 N (init binary64 w canvas random)).rotation =
      ⟨addN binary64 0.0001 N (Num.fin 0), addN binary64 0.0002 N (Num.fin 0),
       addN binary64 0.0001 N (Num.fin 0)⟩ ∧
    (animateN exactArith N (init exactArith w canvas random)).rotation =
      ⟨0.0001 * N, 0.0002 * N, 0.0001 * N⟩ := by
  constructor
  · rw [animateN_rotation_of_nonpos binary64 N (init binary64 w canvas random)
      (le_refl (0 : ℚ)), init_rotation]
  · rw [animateN_rotation_of_nonpos exactArith N (init exactArith w canvas random)
      (le_refl (0 : ℚ)), addN_exact, addN_exact, addN_exact]
    simp [init, exactArith]

/-- C10, as stated, fails: over the sample interleaving of seven frames from the initial state
`rotation.z` ends at `0.0007000000000000001`, not at `0 + 0.0001 × 7`; and one frame leaves
`rotation.z = 10 ^ 13` as it is. -/
theorem C10_closed_form_fails :
    (frames sampleEvents = 7 ∧ (sampleInit binary64).rotation.z = Num.fin 0 ∧
      (run binary64 (sampleInit binary64) sampleEvents).rotation.z =
        Num.fin (6456360425798344 / 2 ^ 63) ∧
      (6456360425798344 / 2 ^ 63 : ℚ) ≠ 0 + 0.0001 * 7) ∧
    (sampleFar.rotation.z = Num.fin (10 ^ 13) ∧
      (run binary64 sampleFar [Event.frame]).rotation.z = Num.fin (10 ^ 13) ∧
      (10 ^ 13 : ℚ) ≠ 10 ^ 13 + 0.0001 * 1) := by
  have hz : (sampleInit binary64).rotation.z = Num.fin 0 := by
    rw [sampleInit, init_rotation]
  refine ⟨⟨rfl, hz, ?_, by norm_num⟩, rfl, ?_, by norm_num⟩
  · rw [run_rotation_z binary64 sampleEvents (sampleInit binary64), hz]
    exact addN_seven
  · show (animate sampleFar).rotation.z = _
    rw [animate, animateIn_rotation_z]
    show Num.add toFloat64 (Num.fin (10 ^ 13)) (toFloat64 0.0001) = _
    rw [lit_0001]
    exact drift_absorbed

/-- C10, amended. Pointer input never influences the z rotation: over every finite interleaving
of frames, pointer moves and resizes from any state, `rotation.z` ends at its initial value
after one addition of `0.0001` per frame, each rounded to binary64, so two interleavings with
the same number of frames end with the same `rotation.z`; in exact arithmetic the end value is
the initial value plus `0.0001` times the number of frames. -/
theorem C10_rotation_z_counts_frames (s : State Num) (t : State ℚ) (es : List Event) :
    (run binary64 s es).rotation.z = addN binary64 0.0001 (frames es) s.rotation.z ∧
    (∀ es2 : List Event, frames es2 = frames es →
      (run binary64 s es2).rotation.z = (run binary64 s es).rotation.z) ∧
    (run exactArith t es).rotation.z = t.rotation.z + 0.0001 * frames es := by
  refine ⟨run_rotation_z binary64 es s, fun es2 h => ?_, ?_⟩
  · rw [run_rotation_z binary64 es2 s, run_rotation_z binary64 es s, h]
  · rw [run_rotation_z exactArith es t, addN_exact]


/-! ## Monotonicity of the angles -/

/-- Conversion to binary64 is monotone. -/
theorem toFloat64_mono (x y : ℚ) (h : x ≤ y) : Num.le (toFloat64 x) (toFloat64 y) :=
  toBinary_mono 53 (-1022) 1024 (by norm_num) x y h

/-- A non-negative value is converted to a non-negative Number. -/
theorem toFloat64_nonneg (x : ℚ) (h : 0 ≤ x) : Num.le (Num.fin 0) (toFloat64 x) := by
  have := toFloat64_mono 0 x h
  rw [toFloat64_zero] at this
  exact this

/-- A binary64 sum of a Number at or above the binary64 value `a` and a non-negative Number is
at or above `a`. -/
theorem le_add_of_le (a : ℚ) (ha : isFloat64 a) (u v : Num) (hu : Num.le (Num.fin a) u)
    (hv : Num.le (Num.fin 0) v) : Num.le (Num.fin a) (Num.add toFloat64 u v) := by
  cases u with
  | fin b =>
    cases v with
    | fin c =>
      have hb : a ≤ b := hu
      have hc : (0 : ℚ) ≤ c := hv
      have := toFloat64_mono a (b + c) (by linarith)
      rw [show toFloat64 a = Num.fin a from ha] at this
      exact this
    | posInf => simp [Num.le, Num.add]
    | negInf => exact absurd hv (by simp [Num.le])
    | nan => exact absurd hv (by simp [Num.le])
  | posInf =>
    cases v with
    | fin c => simp [Num.le, Num.add]
    | posInf => simp [Num.le, Num.add]
    | negInf => exact absurd hv (by simp [Num.le])
    | nan => exact absurd hv (by simp [Num.le])
  | negInf => exact absurd hu (by simp [Num.le])
  | nan => exact absurd hu (by simp [Num.le])

/-- The pointer term of a non-negative offset is not negative. -/
theorem pointer_term_nonneg (m c : ℚ) (hm : 0 ≤ m) (hc : 0 < c) :
    Num.le (Num.fin 0) (Num.mul toFloat64 (toFloat64 m) (Num.fin c)) := by
  have h := toFloat64_nonneg m hm
  cases hv : toFloat64 m with
  | fin a =>
    rw [hv] at h
    have ha : (0 : ℚ) ≤ a := h
    exact toFloat64_nonneg (a * c) (mul_nonneg ha hc.le)
  | posInf =>
    show Num.le (Num.fin 0) (Num.infTimes true c)
    unfold Num.infTimes
    rw [if_neg hc.ne']
    simp [hc, Num.le]
  | negInf => rw [hv] at h; exact absurd h (by simp [Num.le])
  | nan => rw [hv] at h; exact absurd h (by simp [Num.le])

/-- Adding a non-negative binary64 constant to a binary64 value does not decrease it. -/
theorem le_add_const (a c : ℚ) (ha : isFloat64 a) (hc : 0 ≤ c) :
    Num.le (Num.fin a) (Num.add toFloat64 (Num.fin a) (Num.fin c)) :=
  le_add_of_le a ha (Num.fin a) (Num.fin c) (le_refl a) hc

/-- The first addition of the drift `0.0002` to a zero angle. -/
theorem drift_one_y : toFloat64 (0 + c0002) = Num.fin c0002 := by
  apply toFloat64_eq _ _ (-13) 7378697629483821 <;> norm_num [abs_of_pos, c0002]

/-- The rotation of the sample script after its load: one frame from zero. -/
theorem sampleLoaded_rotation :
    (sampleLoaded binary64).rotation = ⟨Num.fin c0001, Num.fin c0002, Num.fin c0001⟩ := by
  show (animate (sampleInit binary64)).rotation = _
  rw [animate_rotation_of_nonpos (sampleInit binary64) (le_refl (0 : ℚ)), sampleInit,
    init_rotation]
  show (⟨toFloat64 (0 + c0001), toFloat64 (0 + c0002), toFloat64 (0 + c0001)⟩ : Vec3 Num) = _
  rw [drift_one, drift_one_y]

/-- C8, as stated, fails: in the sample script, loaded and with the pointer moved to
`mouseX = 5`, `mouseY = -10`, a frame takes `rotation.x` from `0.0001` to
`-0.0006000000000000001`. -/
theorem C8_rotation_x_decreases :
    (sampleRightAbove binary64).mouseX = 5 ∧ (sampleRightAbove binary64).mouseY = -10 ∧
    (sampleRightAbove binary64).rotation.x = Num.fin c0001 ∧
    (animate (sampleRightAbove binary64)).rotation.x =
      Num.fin (-5534023222112866 / 2 ^ 63) ∧
    ¬ Num.le (sampleRightAbove binary64).rotation.x
      (animate (sampleRightAbove binary64)).rotation.x := by
  have hx : (sampleRightAbove binary64).mouseX = 5 := by
    norm_num [sampleRightAbove, mousemove, sampleWindow]
  have hy : (sampleRightAbove binary64).mouseY = -10 := by
    norm_num [sampleRightAbove, mousemove, sampleWindow]
  have hr : (sampleRightAbove binary64).rotation =
      ⟨Num.fin c0001, Num.fin c0002, Num.fin c0001⟩ := sampleLoaded_rotation
  have h0 : (sampleRightAbove binary64).rotation.x = Num.fin c0001 := by rw [hr]
  have h1 : (animate (sampleRightAbove binary64)).rotation.x =
      Num.fin (-5534023222112866 / 2 ^ 63) := by
    rw [animate_rotation_of_pos _ (by rw [hx]; norm_num), hr, hy]
    show Num.add toFloat64 (toFloat64 (c0001 + c0001))
      (Num.mul toFloat64 (toFloat64 (-10)) (Num.fin c00008)) = _
    rw [drift_two, toFloat64_neg_ten]
    show Num.add toFloat64 (Num.fin c0002) (toFloat64 (-10 * c00008)) = _
    rw [pointer_term_above]
    exact drift_above
  refine ⟨hx, hy, h0, h1, ?_⟩
  rw [h0, h1]
  show ¬ (c0001 ≤ -5534023222112866 / 2 ^ 63)
  norm_num [c0001]

/-- C8, amended. In a state whose angles are finite binary64 values, one frame leaves
`rotation.y` and `rotation.z` at or above their values before it, and `rotation.x` too when
`mouseX ≤ 0` or `mouseY ≥ 0`. -/
theorem C8_rotation_monotone_amended (s : State Num) (x y z : ℚ)
    (hr : s.rotation = ⟨Num.fin x, Num.fin y, Num.fin z⟩)
    (hx : isFloat64 x) (hy : isFloat64 y) (hz : isFloat64 z) :
    Num.le (Num.fin y) (animate s).rotation.y ∧
    Num.le (Num.fin z) (animate s).rotation.z ∧
    ((s.mouseX ≤ 0 ∨ 0 ≤ s.mouseY) → Num.le (Num.fin x) (animate s).rotation.x) := by
  have c1 : (0 : ℚ) ≤ c0001 := by norm_num [c0001]
  have c2 : (0 : ℚ) ≤ c0002 := by norm_num [c0002]
  have c8 : (0 : ℚ) < c00008 := by norm_num [c00008]
  rcases le_or_lt s.mouseX 0 with h | h
  · rw [animate_rotation_of_nonpos s h, hr]
    exact ⟨le_add_const y c0002 hy c2, le_add_const z c0001 hz c1,
      fun _ => le_add_const x c0001 hx c1⟩
  · rw [animate_rotation_of_pos s h, hr]
    refine ⟨?_, le_add_const z c0001 hz c1, fun hg => ?_⟩
    · exact le_add_of_le y hy _ _ (le_add_const y c0002 hy c2)
        (pointer_term_nonneg _ _ h.le c8)
    · have hm : 0 ≤ s.mouseY := by
        rcases hg with hg | hg
        · exact absurd h (not_lt.mpr hg)
        · exact hg
      exact le_add_of_le x hx _ _ (le_add_const x c0001 hx c1)
        (pointer_term_nonneg _ _ hm c8)

/-- C8 amended, at the loaded sample with the pointer at `mouseX = 5`, `mouseY = 10`. -/
theorem C8_rotation_monotone_amended_witness :
    Num.le (Num.fin c0002) (animate (sampleRightBelow binary64)).rotation.y ∧
    Num.le (Num.fin c0001) (animate (sampleRightBelow binary64)).rotation.z ∧
    Num.le (Num.fin c0001) (animate (sampleRightBelow binary64)).rotation.x :=
  have hy : (0 : ℚ) ≤ (sampleRightBelow binary64).mouseY := by
    norm_num [sampleRightBelow, mousemove, sampleWindow]
  have h := C8_rotation_monotone_amended (sampleRightBelow binary64) c0001 c0002 c0001
    sampleLoaded_rotation isFloat64_c0001 isFloat64_c0002 isFloat64_c0001
  ⟨h.1, h.2.1, h.2.2 (Or.inr hy)⟩


/-! ## The particle buffer -/

/-- Between two binary64 values, a value is converted to a finite binary64 value between
them. -/
theorem toFloat64_between (lo hi x : ℚ) (hlo : toFloat64 lo = Num.fin lo)
    (hhi : toFloat64 hi = Num.fin hi) (h1 : lo ≤ x) (h2 : x ≤ hi) :
    ∃ y, toFloat64 x = Num.fin y ∧ lo ≤ y ∧ y ≤ hi :=
  toBinary_between 53 (-1022) 1024 (by norm_num) lo hi x hlo hhi h1 h2

/-- Between two binary32 values, a value is converted to a finite binary32 value between
them. -/
theorem toFloat32_between (lo hi x : ℚ) (hlo : toFloat32 lo = Num.fin lo)
    (hhi : toFloat32 hi = Num.fin hi) (h1 : lo ≤ x) (h2 : x ≤ hi) :
    ∃ y, toFloat32 x = Num.fin y ∧ lo ≤ y ∧ y ≤ hi :=
  toBinary_between 24 (-126) 128 (by norm_num) lo hi x hlo hhi h1 h2

/-- The component computed from a finite random value, by its three roundings. -/
theorem particleComponent_of (r a b : ℚ) (c : Num) (ha : toFloat64 (r + -(1 / 2)) = Num.fin a)
    (hb : toFloat64 (a * 100) = Num.fin b) (hc : toFloat32 b = c) :
    particleComponent r = c := by
  unfold particleComponent
  rw [lit_half, lit_100]
  show Num.store32 (Num.mul toFloat64 (toFloat64 (r + -(1 / 2))) (Num.fin 100)) = c
  rw [ha]
  show Num.store32 (toFloat64 (a * 100)) = c
  rw [hb]
  exact hc

/-- A random value in `[0, 1]` gives a finite component in `[-50, 50]`. -/
theorem particleComponent_bounds (r : ℚ) (h0 : 0 ≤ r) (h1 : r ≤ 1) :
    ∃ q, particleComponent r = Num.fin q ∧ -50 ≤ q ∧ q ≤ 50 := by
  obtain ⟨a, ha, ha1, ha2⟩ := toFloat64_between (-(1 / 2)) (1 / 2) (r + -(1 / 2))
    toFloat64_half.2 toFloat64_half.1 (by linarith) (by linarith)
  obtain ⟨b, hb, hb1, hb2⟩ := toFloat64_between (-50) 50 (a * 100)
    toFloat64_fifty.2 toFloat64_fifty.1 (by linarith) (by linarith)
  obtain ⟨q, hq, hq1, hq2⟩ := toFloat32_between (-50) 50 b
    toFloat32_fifty.2 toFloat32_fifty.1 hb1 hb2
  exact ⟨q, particleComponent_of r a b _ ha hb hq, hq1, hq2⟩

/-- When `Math.random()` returns `nearOne`, the component stored is exactly 50. -/
theorem particleComponent_nearOne : particleComponent nearOne = Num.fin 50 :=
  particleComponent_of nearOne _ _ _ nearOne_minus_half nearOne_times_hundred nearOne_stored

/-- The fill loop keeps the length of the array. -/
theorem fill_length (f : ℕ → Num) (l : List ℕ) (arr : List Num) :
    (l.foldl (fun a i => a.set i (f i)) arr).length = arr.length := by
  induction l generalizing arr with
  | nil => rfl
  | cons i l ih => rw [List.foldl_cons, ih, List.length_set]

/-- A property of the initial elements and of every stored value holds of every element the
fill loop leaves. -/
theorem fill_forall (P : Num → Prop) (f : ℕ → Num) (hf : ∀ i, P (f i)) (l : List ℕ)
    (arr : List Num) (harr : ∀ c ∈ arr, P c) :
    ∀ c ∈ l.foldl (fun a i => a.set i (f i)) arr, P c := by
  induction l generalizing arr with
  | nil => exact harr
  | cons i l ih =>
    rw [List.foldl_cons]
    apply ih
    intro c hc
    rcases List.mem_or_eq_of_mem_set hc with h | h
    · exact harr c h
    · rw [h]; exact hf i

/-- After the loop has run over the indices below `n`, element `i < n` is the value stored at
step `i`. -/
theorem fill_getElem? (f : ℕ → Num) (n : ℕ) (arr : List Num) (hn : n ≤ arr.length)
    (i : ℕ) (hi : i < n) :
    ((List.range n).foldl (fun a j => a.set j (f j)) arr)[i]? = some (f i) := by
  induction n with
  | zero => omega
  | succ n ih =>
    rw [List.range_succ, List.foldl_append, List.foldl_cons, List.foldl_nil]
    have hlen : n < ((List.range n).foldl (fun a j => a.set j (f j)) arr).length := by
      rw [fill_length]; omega
    by_cases h : i = n
    · subst h
      rw [List.getElem?_set_self hlen]
    · rw [List.getElem?_set_ne (Ne.symm h)]
      exact ih (by omega) (by omega)

/-- Element `i` of the particle buffer is the component computed from the `i`-th random
value. -/
theorem mkPosArray_getElem? (random : ℕ → ℚ) (i : ℕ) (hi : i < particlesCount * 3) :
    (mkPosArray random)[i]? = some (particleComponent (random i)) := by
  unfold mkPosArray
  exact fill_getElem? (fun j => particleComponent (random j)) _ _
    (by rw [List.length_replicate]) i hi

/-- C6, as stated, fails: when every call of `Math.random()` returns `nearOne`, a value in
`[0, 1)`, the component stored at index 0 is exactly 50, outside `[-50, 50)`: the binary64
product is `49.99999999999998`, nearer to 50 than to the binary32 value below it. -/
theorem C6_component_reaches_50 :
    (0 ≤ nearOne ∧ nearOne < 1) ∧
    (mkPosArray (fun _ => nearOne))[0]? = some (Num.fin 50) ∧
    ¬ (∀ c ∈ mkPosArray (fun _ => nearOne), ∃ q, c = Num.fin q ∧ -50 ≤ q ∧ q < 50) := by
  have h0 : (mkPosArray (fun _ => nearOne))[0]? = some (Num.fin 50) := by
    rw [mkPosArray_getElem? _ 0 (by norm_num [particlesCount]), particleComponent_nearOne]
  refine ⟨⟨by norm_num [nearOne], by norm_num [nearOne]⟩, h0, fun h => ?_⟩
  obtain ⟨q, hq, -, hlt⟩ := h _ (List.getElem?_mem h0)
  rw [Num.fin.injEq] at hq
  rw [← hq] at hlt
  exact absurd hlt (lt_irrefl _)

/-- C6, amended. For every sequence of `Math.random()` values in `[0, 1)`, the particle buffer
has length exactly `3 × 2000 = 6000` and every stored component is finite and lies in the closed
interval `[-50, 50]`. -/
theorem C6_posArray_length_and_range (random : ℕ → ℚ)
    (h : ∀ i, 0 ≤ random i ∧ random i < 1) :
    ((mkPosArray random).length = 3 * 2000 ∧ (mkPosArray random).length = 6000) ∧
    ∀ c ∈ mkPosArray random, ∃ q, c = Num.fin q ∧ -50 ≤ q ∧ q ≤ 50 := by
  have hlen : (mkPosArray random).length = 6000 := by
    unfold mkPosArray
    rw [fill_length, List.length_replicate]
    rfl
  refine ⟨⟨hlen, hlen⟩, ?_⟩
  unfold mkPosArray
  apply fill_forall (fun c => ∃ q, c = Num.fin q ∧ -50 ≤ q ∧ q ≤ 50)
    (fun i => particleComponent (random i))
  · intro i
    exact particleComponent_bounds (random i) (h i).1 (h i).2.le
  · intro c hc
    rw [List.eq_of_mem_replicate hc]
    exact ⟨0, rfl, by norm_num, by norm_num⟩

/-- C6 amended, at the buffer whose random values are all `nearOne`. -/
theorem C6_posArray_length_and_range_witness :
    (mkPosArray (fun _ => nearOne)).length = 6000 ∧
    ∀ c ∈ mkPosArray (fun _ => nearOne), ∃ q, c = Num.fin q ∧ -50 ≤ q ∧ q ≤ 50 :=
  have h := C6_posArray_length_and_range (fun _ => nearOne)
    (fun _ => ⟨by norm_num [nearOne], by norm_num [nearOne]⟩)
  ⟨h.1.2, h.2⟩

end Animation
